import Mathlib

/-!
Shallow embedding of the content-addressed chunked blob upload subsystem
(YHash, BlobHashTree, StorageClient) of the repository, together with
theorems settling the specification claims.

Bytes are modelled as natural numbers below 256, byte sequences and strings
as lists of natural numbers (strings as lists of UTF-16 code units / code
points). 32-bit machine words are natural numbers reduced modulo 2^32.
-/

/-! ## SHA-256 (the hash used by YHash.fromBytes via crypto.subtle.digest) -/

/-- Reduce to a 32-bit word. -/
def w32 (x : Nat) : Nat := x % 4294967296

/-- Right rotation of a 32-bit word by n bits. -/
def rotr (n x : Nat) : Nat := x % 2 ^ n * 2 ^ (32 - n) + x / 2 ^ n

/-- Right shift. -/
def shr (n x : Nat) : Nat := x / 2 ^ n

/-- Bitwise complement within 32 bits. -/
def compl32 (x : Nat) : Nat := 4294967295 ^^^ x

def bsig0 (x : Nat) : Nat := rotr 2 x ^^^ rotr 13 x ^^^ rotr 22 x

def bsig1 (x : Nat) : Nat := rotr 6 x ^^^ rotr 11 x ^^^ rotr 25 x

def ssig0 (x : Nat) : Nat := rotr 7 x ^^^ rotr 18 x ^^^ shr 3 x

def ssig1 (x : Nat) : Nat := rotr 17 x ^^^ rotr 19 x ^^^ shr 10 x

def shaCh (x y z : Nat) : Nat := (x &&& y) ^^^ (compl32 x &&& z)

def shaMaj (x y z : Nat) : Nat := (x &&& y) ^^^ (x &&& z) ^^^ (y &&& z)

/-- The 64 SHA-256 round constants, written in decimal. -/
def sha256K : List Nat :=
  [1116352408, 1899447441, 3049323471, 3921009573, 961987163, 1508970993,
   2453635748, 2870763221, 3624381080, 310598401, 607225278, 1426881987,
   1925078388, 2162078206, 2614888103, 3248222580, 3835390401, 4022224774,
   264347078, 604807628, 770255983, 1249150122, 1555081692, 1996064986,
   2554220882, 2821834349, 2952996808, 3210313671, 3336571891, 3584528711,
   113926993, 338241895, 666307205, 773529912, 1294757372, 1396182291,
   1695183700, 1986661051, 2177026350, 2456956037, 2730485921, 2820302411,
   3259730800, 3345764771, 3516065817, 3600352804, 4094571909, 275423344,
   430227734, 506948616, 659060556, 883997877, 958139571, 1322822218,
   1537002063, 1747873779, 1955562222, 2024104815, 2227730452, 2361852424,
   2428436474, 2756734187, 3204031479, 3329325298]

/-- The initial SHA-256 state, written in decimal. -/
def sha256H0 : List Nat :=
  [1779033703, 3144134277, 1013904242, 2773480762,
   1359893119, 2600822924, 528734635, 1541459225]

/-- Big-endian 8-byte encoding of the bit length, appended by the padding. -/
def lenBytes64 (bitLen : Nat) : List Nat :=
  [bitLen / 2 ^ 56 % 256, bitLen / 2 ^ 48 % 256, bitLen / 2 ^ 40 % 256, bitLen / 2 ^ 32 % 256,
   bitLen / 2 ^ 24 % 256, bitLen / 2 ^ 16 % 256, bitLen / 2 ^ 8 % 256, bitLen % 256]

/-- SHA-256 padding: 0x80, zeros to 56 mod 64, then the 64-bit message bit length. -/
def sha256pad (msg : List Nat) : List Nat :=
  msg ++ [128] ++ List.replicate ((64 - (msg.length + 9) % 64) % 64) 0 ++ lenBytes64 (8 * msg.length)

/-- Split the padded message into 64-byte blocks. -/
def toBlocks (l : List Nat) : List (List Nat) :=
  (List.range ((l.length + 63) / 64)).map fun i => (l.drop (64 * i)).take 64

/-- The 16 initial 32-bit message-schedule words of a 64-byte block (big endian). -/
def blockWords (block : List Nat) : List Nat :=
  (List.range 16).map fun i =>
    block.getD (4 * i) 0 * 2 ^ 24 + block.getD (4 * i + 1) 0 * 2 ^ 16 +
      block.getD (4 * i + 2) 0 * 2 ^ 8 + block.getD (4 * i + 3) 0

/-- Extend 16 schedule words to 64. -/
def sha256schedule (m : List Nat) : List Nat :=
  (List.range 48).foldl
    (fun ws k =>
      let t := k + 16
      ws ++ [w32 (ssig1 (ws.getD (t - 2) 0) + ws.getD (t - 7) 0 +
        ssig0 (ws.getD (t - 15) 0) + ws.getD (t - 16) 0)])
    m

/-- One round of the SHA-256 compression function on the 8-register state. -/
def compressStep (ws : List Nat) (st : List Nat) (t : Nat) : List Nat :=
  let a := st.getD 0 0
  let b := st.getD 1 0
  let c := st.getD 2 0
  let d := st.getD 3 0
  let e := st.getD 4 0
  let f := st.getD 5 0
  let g := st.getD 6 0
  let h := st.getD 7 0
  let t1 := w32 (h + bsig1 e + shaCh e f g + sha256K.getD t 0 + ws.getD t 0)
  let t2 := w32 (bsig0 a + shaMaj a b c)
  [w32 (t1 + t2), a, b, c, w32 (d + t1), e, f, g]

/-- Process one 64-byte block, updating the 8-word hash state. -/
def processBlock (st : List Nat) (block : List Nat) : List Nat :=
  let ws := sha256schedule (blockWords block)
  let final := (List.range 64).foldl (compressStep ws) st
  List.zipWith (fun x y => w32 (x + y)) st final

/-- Big-endian byte rendering of a 32-bit word. -/
def wordBytes (w : Nat) : List Nat :=
  [w / 2 ^ 24 % 256, w / 2 ^ 16 % 256, w / 2 ^ 8 % 256, w % 256]

/-- SHA-256 of a byte sequence, as 32 bytes. -/
def sha256 (msg : List Nat) : List Nat :=
  ((toBlocks (sha256pad msg)).foldl processBlock sha256H0).flatMap wordBytes

/-! ## Errors thrown by the subsystem (messages of the thrown Error values) -/

/-- The distinct failures the subsystem can raise. Each constructor stands for
one thrown Error of the source: invalidDigestLength for the YHash constructor
length check, nullMatch for the null regex match dereference in fromHex,
toStringUnsupported for YHash.toString, pathRequired for the putFile path
check, emptyChunkSequence for the empty-chunks check in BlobHashTree.build,
treeRegistrationFailed and chunkUploadFailed for non-2xx gateway responses. -/
inductive Err where
  | invalidDigestLength (got : Nat)
  | nullMatch
  | toStringUnsupported
  | pathRequired
  | emptyChunkSequence
  | treeRegistrationFailed
  | chunkUploadFailed (index : Nat)
deriving DecidableEq

/-! ## YHash: the 32-byte content digest -/

/-- A YHash value: an exactly-32-byte Uint8Array. The length invariant is the
constructor check of the source; the byte bound is the Uint8Array element
type. -/
structure YHash where
  bytes : List Nat
  len32 : bytes.length = 32
  lt256 : ∀ b ∈ bytes, b < 256

/-- Two YHash values with the same bytes are equal. -/
theorem YHash.ext {h1 h2 : YHash} (h : h1.bytes = h2.bytes) : h1 = h2 := by
  cases h1; cases h2; simp_all

instance : DecidableEq YHash := fun h1 h2 =>
  if h : h1.bytes = h2.bytes then .isTrue (YHash.ext h)
  else .isFalse (fun e => h (congrArg YHash.bytes e))

/-- A compression round always yields an 8-register state. -/
theorem compressStep_length (ws st : List Nat) (t : Nat) : (compressStep ws st t).length = 8 := rfl

/-- Length of a sha256 digest is 32 bytes. -/
theorem sha256_length (msg : List Nat) : (sha256 msg).length = 32 := by
  have hlen : ∀ ws : List Nat, (ws.flatMap wordBytes).length = 4 * ws.length := by
    intro ws
    induction ws with
    | nil => rfl
    | cons w rest ih => simp [wordBytes, ih]; omega
  have hcomp : ∀ (ws l st0 : List Nat), st0.length = 8 →
      (l.foldl (compressStep ws) st0).length = 8 := by
    intro ws l
    induction l with
    | nil => intro st0 h0; exact h0
    | cons t rest ih => intro st0 h0; exact ih _ (compressStep_length ws st0 t)
  have hstep : ∀ st block, (st : List Nat).length = 8 → (processBlock st block).length = 8 := by
    intro st block h0
    simp only [processBlock, List.length_zipWith]
    rw [hcomp _ (List.range 64) st h0]
    omega
  have hfold : ∀ (blocks : List (List Nat)) (st : List Nat), st.length = 8 →
      (blocks.foldl processBlock st).length = 8 := by
    intro blocks
    induction blocks with
    | nil => intro st h0; exact h0
    | cons b rest ih => intro st h0; exact ih _ (hstep st b h0)
  simp only [sha256]
  rw [hlen, hfold (toBlocks (sha256pad msg)) sha256H0 (by rfl)]

/-- Every byte of a sha256 digest is below 256. -/
theorem sha256_lt256 (msg : List Nat) : ∀ b ∈ sha256 msg, b < 256 := by
  intro b hb
  rw [sha256, List.mem_flatMap] at hb
  obtain ⟨w, _, hw⟩ := hb
  simp only [wordBytes, List.mem_cons, List.not_mem_nil, or_false] at hw
  rcases hw with h | h | h | h <;> subst h <;> exact Nat.mod_lt _ (by norm_num)

/-- Models YHash.fromBytes: SHA-256 of the data, wrapped in the constructor. -/
def YHash.fromBytes (data : List Nat) : YHash :=
  ⟨sha256 data, sha256_length data, sha256_lt256 data⟩

/-- Models the YHash constructor: rejects byte buffers whose length is not 32.
The byte bound is supplied by the Uint8Array element type at every call site. -/
def YHash.make (bytes : List Nat) (hb : ∀ b ∈ bytes, b < 256) : Except Err YHash :=
  if h : bytes.length = 32 then .ok ⟨bytes, h, hb⟩
  else .error (.invalidDigestLength bytes.length)

/-- Lowercase hex digit character code for a value below 16; this is what
b.toString(16) produces per digit. -/
def hexDigitCode (d : Nat) : Nat := if d < 10 then 48 + d else 87 + d

/-- Models b.toString(16).padStart(2, with zero) for a byte b < 256. -/
def hexPair (b : Nat) : List Nat := [hexDigitCode (b / 16), hexDigitCode (b % 16)]

/-- Models YHash.toHex: each byte rendered as two lowercase hex digits. -/
def YHash.toHex (h : YHash) : List Nat := h.bytes.flatMap hexPair

/-- The character codes of the tag sha256 followed by a colon. -/
def shaTag : List Nat := [115, 104, 97, 50, 53, 54, 58]

/-- Models YHash.toShaString: the tag followed by the hex rendering. -/
def YHash.toShaString (h : YHash) : List Nat := shaTag ++ h.toHex

/-- Models YHash.toString: always throws. -/
def YHash.toString (_ : YHash) : Except Err (List Nat) := .error .toStringUnsupported

/-- Line terminator character codes, which the dot of a regular expression
does not match. -/
def isLineTerm (c : Nat) : Bool := c == 10 || c == 13 || c == 8232 || c == 8233

/-- Models hexString.match over the pattern dot-one-to-two with the global
flag: greedy runs of one or two adjacent non-terminator characters, scanning
left to right and skipping characters where no match starts. -/
def matchPairs : List Nat → List (List Nat)
  | [] => []
  | [c] => if isLineTerm c then [] else [[c]]
  | c :: c2 :: rest =>
    if isLineTerm c then matchPairs (c2 :: rest)
    else if isLineTerm c2 then [c] :: matchPairs rest
    else [c, c2] :: matchPairs rest

/-- White-space and related character codes skipped by parseInt. -/
def isJsSpace (c : Nat) : Bool :=
  c == 32 || (9 ≤ c && c ≤ 13) || c == 160 || c == 5760 || (8192 ≤ c && c ≤ 8202) ||
    c == 8232 || c == 8233 || c == 8239 || c == 8287 || c == 12288 || c == 65279

/-- Hexadecimal digit character codes 0-9, a-f, A-F. -/
def isHexDigitCode (c : Nat) : Bool :=
  (48 ≤ c && c ≤ 57) || (97 ≤ c && c ≤ 102) || (65 ≤ c && c ≤ 70)

/-- Numeric value of a hexadecimal digit character code. -/
def hexVal (c : Nat) : Nat := if c ≤ 57 then c - 48 else if c ≤ 70 then c - 55 else c - 87

/-- Models parseInt(s, 16): skip leading white space, take an optional sign
and an optional 0x or 0X prefix, then the longest run of hexadecimal digits;
none gives NaN, modelled as Option.none. -/
def parseIntHex (s : List Nat) : Option Int :=
  let s1 := s.dropWhile isJsSpace
  let sign : Int := if s1.headD 0 == 45 then -1 else 1
  let s2 := if s1.headD 0 == 43 || s1.headD 0 == 45 then s1.tail else s1
  let s3 :=
    if s2.headD 0 == 48 && (s2.tail.headD 0 == 120 || s2.tail.headD 0 == 88) then s2.tail.tail
    else s2
  let digits := s3.takeWhile isHexDigitCode
  if digits.isEmpty then none
  else some (sign * Int.ofNat (digits.foldl (fun a c => 16 * a + hexVal c) 0))

/-- Models storing a parseInt result into a Uint8Array element: NaN becomes 0,
other values are reduced modulo 256. -/
def toUint8 (v : Option Int) : Nat :=
  match v with
  | none => 0
  | some i => (i % 256).toNat

theorem toUint8_lt256 (v : Option Int) : toUint8 v < 256 := by
  match v with
  | none => exact Nat.zero_lt_succ _
  | some i =>
    simp only [toUint8]
    omega

/-- Storing parse results into a Uint8Array yields bytes below 256. -/
theorem map_toUint8_lt256 (gs : List (List Nat)) :
    ∀ b ∈ gs.map fun g => toUint8 (parseIntHex g), b < 256 := by
  intro b hb
  obtain ⟨g, _, hg⟩ := List.mem_map.1 hb
  rw [← hg]
  exact toUint8_lt256 _

/-- Models YHash.fromHex: split the string into groups of one or two
characters, parse each group as hexadecimal, store the results in a
Uint8Array and apply the length-checking constructor. A null match (no
groups) is dereferenced, which throws. -/
def YHash.fromHex (hexString : List Nat) : Except Err YHash :=
  let groups := matchPairs hexString
  if groups.isEmpty then .error .nullMatch
  else
    YHash.make (groups.map fun g => toUint8 (parseIntHex g)) (map_toUint8_lt256 groups)

/-- Whether the first list starts the second, character by character. -/
def begins : List Nat → List Nat → Bool
  | [], _ => true
  | _ :: _, [] => false
  | p :: ps, c :: cs => p == c && begins ps cs

/-- Models String.replace with a plain string pattern: remove the first
occurrence of the pattern, scanning from the left; absent patterns leave the
string unchanged. -/
def replaceFirst (pat : List Nat) : List Nat → List Nat
  | [] => []
  | c :: rest =>
    if begins pat (c :: rest) then (c :: rest).drop pat.length
    else c :: replaceFirst pat rest

/-- Models YHash.fromShaString: delete the first occurrence of the tag, then
parse as hex. -/
def YHash.fromShaString (hash : List Nat) : Except Err YHash :=
  YHash.fromHex (replaceFirst shaTag hash)

/-! ## The Merkle tree builder (BlobHashTree.build) -/

/-- A binary hash tree node: a digest and optional left and right children. -/
inductive TreeNode where
  | mk (hash : YHash) (left : Option TreeNode) (right : Option TreeNode)

/-- The digest held by a node. -/
def TreeNode.hash : TreeNode → YHash
  | .mk h _ _ => h

/-- The sentinel byte sequence UNBALANCED, the UTF-8 encoding used when a
right sibling is absent. -/
def UNBALANCED : List Nat := [85, 78, 66, 65, 76, 65, 78, 67, 69, 68]

/-- One pass of the combining loop: pair adjacent nodes left to right; a
trailing unpaired node is combined with the sentinel instead of a sibling. -/
def combineLevel : List TreeNode → List TreeNode
  | [] => []
  | [left] =>
    [.mk (YHash.fromBytes (left.hash.bytes ++ UNBALANCED)) (some left) none]
  | left :: right :: rest =>
    .mk (YHash.fromBytes (left.hash.bytes ++ right.hash.bytes)) (some left) (some right) ::
      combineLevel rest

/-- The combining loop runs at most length many times, so the iteration count
serves as structural fuel. -/
def buildLoopAux : Nat → List TreeNode → List TreeNode
  | 0, level => level
  | fuel + 1, level => if level.length ≤ 1 then level else buildLoopAux fuel (combineLevel level)

/-- The while loop of BlobHashTree.build: combine levels until one node
remains. -/
def buildLoop (level : List TreeNode) : List TreeNode := buildLoopAux level.length level

/-- A BlobHashTree: the tag, the leaf digests in chunk order, and the root. -/
structure BlobHashTree where
  chunk_hashes : List YHash
  tree : TreeNode

/-- Models BlobHashTree.build: reject an empty digest list, make one leaf per
digest, run the combining loop, and take the remaining node as the root. -/
def BlobHashTree.build (chunkHashes : List YHash) : Except Err BlobHashTree :=
  match chunkHashes with
  | [] => .error .emptyChunkSequence
  | c :: cs =>
    let level := (c :: cs).map fun hash => TreeNode.mk hash none none
    .ok ⟨c :: cs, (buildLoop level).headD (TreeNode.mk c none none)⟩

/-! ## StorageClient: chunking, the worker pool, and the upload pipeline -/

/-- The fixed worker-pool width MAXIMUM_CONCURRENT_UPLOADS. -/
def MAXIMUM_CONCURRENT_UPLOADS : Nat := 10

/-- Models StorageClient.createFileChunks: ceil(size / chunkSize) slices, the
slice at index covering the bytes from index times chunkSize up to the next
multiple or the end of the file. The default chunk size is 1 MiB. -/
def createFileChunks (file : List Nat) (chunkSize : Nat := 1048576) : List (List Nat) :=
  let totalChunks := (file.length + chunkSize - 1) / chunkSize
  (List.range totalChunks).map fun index =>
    let start := index * chunkSize
    let stop := min (start + chunkSize) file.length
    (file.drop start).take (stop - start)

/-- The chunk indices handled by one worker of parallelUpload: its id, then
every tenth index after it, below the chunk count. -/
def strideIndices (w n : Nat) : List Nat :=
  (List.range ((n - w + MAXIMUM_CONCURRENT_UPLOADS - 1) / MAXIMUM_CONCURRENT_UPLOADS)).map
    fun k => w + MAXIMUM_CONCURRENT_UPLOADS * k

/-- All indices uploaded by the pool, grouped by worker in worker order. -/
def uploadOrder (n : Nat) : List Nat :=
  (List.range MAXIMUM_CONCURRENT_UPLOADS).flatMap fun w => strideIndices w n

/-- Per-index gateway and registry behaviour injected into the pipeline:
whether the blob-tree registration succeeds and whether the upload of each
chunk index succeeds. -/
structure GatewayEnv where
  treeOk : Bool
  chunkOk : Nat → Bool

/-- Observable calls the pipeline makes to its collaborators: the blob-tree
registration, each chunk upload attempt, and the registry registration. -/
inductive Event where
  | uploadTree
  | uploadChunk (index : Nat)
  | register
deriving DecidableEq

/-- One worker of parallelUpload: upload the stride indices in order and stop
at this worker's first failed chunk, reporting its index. -/
def runWorkerAux (env : GatewayEnv) : List Nat → List Event × Option Nat
  | [] => ([], none)
  | i :: rest =>
    if env.chunkOk i then
      let r := runWorkerAux env rest
      (Event.uploadChunk i :: r.1, r.2)
    else ([Event.uploadChunk i], some i)

/-- Models StorageClient.parallelUpload joined by Promise.all: all workers run
their strides; the join fails when any worker failed, with that worker's
failing chunk index. -/
def parallelUpload (env : GatewayEnv) (n : Nat) : Except Err Unit × List Event :=
  let runs := (List.range MAXIMUM_CONCURRENT_UPLOADS).map fun w =>
    runWorkerAux env (strideIndices w n)
  let events := runs.flatMap Prod.fst
  match (runs.filterMap Prod.snd).head? with
  | some i => (.error (.chunkUploadFailed i), events)
  | none => (.ok (), events)

/-- The outcome of a successful putFile: the path and the tagged root-digest
string. -/
structure PutResult where
  path : List Nat
  hash : List Nat
deriving DecidableEq

/-- Models StorageClient.putFile: reject an empty path; chunk the file; hash
every chunk; build the blob hash tree; register the tree with the gateway;
upload all chunks through the worker pool; only then register the path and
root digest with the registry. The second component records the collaborator
calls in model order. -/
def putFile (env : GatewayEnv) (path : List Nat) (file : List Nat) :
    Except Err PutResult × List Event :=
  if path.isEmpty then (.error .pathRequired, [])
  else
    let chunks := createFileChunks file
    let chunkHashes := chunks.map YHash.fromBytes
    match BlobHashTree.build chunkHashes with
    | .error e => (.error e, [])
    | .ok blobHashTree =>
      if env.treeOk then
        let blobRootHash := blobHashTree.tree.hash
        match parallelUpload env chunks.length with
        | (.ok _, events) =>
          (.ok ⟨path, blobRootHash.toShaString⟩,
            Event.uploadTree :: events ++ [Event.register])
        | (.error e, events) => (.error e, Event.uploadTree :: events)
      else (.error .treeRegistrationFailed, [Event.uploadTree])

/-- The percentage reported after an upload completion: 100 when there are no
chunks, otherwise completed over total times 100, rounded half up (the exact
rational arithmetic behind Math.round of the source expression). -/
def percentage (completed total : Nat) : Nat :=
  if total = 0 then 100 else (200 * completed + total) / (2 * total)

/-- The shared completion counter and progress reports of parallelUpload, run
over the chunk completion events in an arbitrary temporal order: each
completion increments the counter once and then reports the percentage for
the new counter value. -/
def progressRun (total : Nat) (exec : List Nat) : Nat × List Nat :=
  exec.foldl (fun st _ => (st.1 + 1, st.2 ++ [percentage (st.1 + 1) total])) (0, [])

/-! ## Shared infrastructure for the claim theorems -/

/-- A concrete digest used as a test input: 32 zero bytes. -/
def zeroDigest : YHash := ⟨List.replicate 32 0, by simp, by simp⟩

/-- Membership in a worker stride: the indices of the form worker id plus a
multiple of the pool width, below the chunk count. -/
theorem mem_strideIndices {w n i : Nat} :
    i ∈ strideIndices w n ↔ (∃ k, i = w + 10 * k) ∧ i < n := by
  simp only [strideIndices, MAXIMUM_CONCURRENT_UPLOADS, List.mem_map, List.mem_range]
  constructor
  · rintro ⟨k, hk, rfl⟩
    exact ⟨⟨k, rfl⟩, by omega⟩
  · rintro ⟨⟨k, rfl⟩, hi⟩
    exact ⟨k, by omega, rfl⟩

/-- Each worker stride lists distinct indices. -/
theorem strideIndices_nodup (w n : Nat) : (strideIndices w n).Nodup := by
  refine (List.nodup_range _).map (fun a b hab => ?_)
  simp only [MAXIMUM_CONCURRENT_UPLOADS] at hab
  omega

/-- The strides of distinct workers of the pool are disjoint. -/
theorem uploadOrder_nodup (n : Nat) : (uploadOrder n).Nodup := by
  rw [uploadOrder, List.nodup_flatMap]
  refine ⟨fun w _ => strideIndices_nodup w n, ?_⟩
  refine ((List.pairwise_lt_range _).imp_of_mem ?_)
  intro a b ha hb hab i hia hib
  rw [List.mem_range] at ha hb
  simp only [MAXIMUM_CONCURRENT_UPLOADS] at ha hb
  rw [mem_strideIndices] at hia hib
  obtain ⟨⟨k1, rfl⟩, _⟩ := hia
  obtain ⟨⟨k2, hk2⟩, _⟩ := hib
  omega

/-- Every index below the chunk count occurs in the pool order. -/
theorem mem_uploadOrder {n i : Nat} : i ∈ uploadOrder n ↔ i < n := by
  rw [uploadOrder, List.mem_flatMap]
  constructor
  · rintro ⟨w, _, hw⟩
    exact (mem_strideIndices.1 hw).2
  · intro hi
    refine ⟨i % 10, ?_, ?_⟩
    · simp only [MAXIMUM_CONCURRENT_UPLOADS, List.mem_range]
      omega
    · rw [mem_strideIndices]
      exact ⟨⟨i / 10, by omega⟩, hi⟩

/-- The pool order is a permutation of the ordered index range. -/
theorem uploadOrder_perm_range (n : Nat) : (uploadOrder n).Perm (List.range n) := by
  rw [List.perm_iff_count]
  intro a
  by_cases ha : a < n
  · rw [List.count_eq_one_of_mem (uploadOrder_nodup n) (mem_uploadOrder.2 ha),
      List.count_eq_one_of_mem (List.nodup_range n) (List.mem_range.2 ha)]
  · rw [List.count_eq_zero.2 (fun hmem => ha (mem_uploadOrder.1 hmem)),
      List.count_eq_zero.2 (fun hmem => ha (List.mem_range.1 hmem))]

/-- The pool uploads exactly the chunk count many chunks. -/
theorem uploadOrder_length (n : Nat) : (uploadOrder n).length = n := by
  rw [(uploadOrder_perm_range n).length_eq, List.length_range]

/-! ## Claim C1: the Merkle tree builder is deterministic -/

/-- Claim C1: for every non-empty sequence of chunk digests, two runs of
BlobHashTree.build on identical digest sequences succeed and yield the one
identical tree, hence identical root digests: the builder is a pure function
of the digest sequence. -/
theorem build_deterministic (l1 l2 : List YHash) (hne : l1 ≠ []) (heq : l1 = l2) :
    ∃ t, BlobHashTree.build l1 = .ok t ∧ BlobHashTree.build l2 = .ok t := by
  subst heq
  cases l1 with
  | nil => exact absurd rfl hne
  | cons c cs => exact ⟨_, rfl, rfl⟩

/-- Witness for C1 at the concrete one-element digest sequence. -/
theorem build_deterministic_witness :
    ∃ t, BlobHashTree.build [zeroDigest] = .ok t ∧ BlobHashTree.build [zeroDigest] = .ok t :=
  build_deterministic [zeroDigest] [zeroDigest] (List.cons_ne_nil _ _) rfl

/-! ## Claim C2: the single-chunk tree -/

set_option maxRecDepth 10000 in
/-- Counterexample to claim C2: for the concrete all-zero digest, the root
digest of the one-chunk tree is the chunk digest itself, not the hash of the
digest bytes followed by the sentinel. -/
theorem build_singleton_counterexample :
    ((BlobHashTree.build [zeroDigest]).toOption.map fun t => t.tree.hash.bytes) ≠
      some (sha256 (zeroDigest.bytes ++ UNBALANCED)) := by decide

/-- Claim C2 as amended: a single-element digest sequence builds a tree whose
root is the bare leaf carrying that digest; the combining loop never runs, so
the sentinel is not applied and no hash is computed. -/
theorem build_singleton (d : YHash) :
    BlobHashTree.build [d] = .ok ⟨[d], TreeNode.mk d none none⟩ := rfl

/-! ## Claim C3: the worker-pool assignment is a partition -/

/-- Claim C3: every chunk index below the chunk count is uploaded exactly once
by the pool of width 10, and a worker uploads exactly the indices congruent to
its id modulo the width. -/
theorem parallelUpload_partition (n i : Nat) (hi : i < n) :
    (uploadOrder n).count i = 1 ∧
      ∀ w, i ∈ strideIndices w n ↔ ∃ k, i = w + 10 * k := by
  constructor
  · exact List.count_eq_one_of_mem (uploadOrder_nodup n) (mem_uploadOrder.2 hi)
  · intro w
    rw [mem_strideIndices]
    constructor
    · rintro ⟨hk, _⟩
      exact hk
    · intro hk
      exact ⟨hk, hi⟩

/-- Witness for C3: with 23 chunks, index 22 is uploaded exactly once. -/
theorem parallelUpload_partition_witness : (uploadOrder 23).count 22 = 1 :=
  (parallelUpload_partition 23 22 (by decide)).1

/-! ## Claim C10: toString always throws -/

/-- Claim C10: calling toString on any YHash value fails with the
unsupported-operation error; it never yields a string. -/
theorem yhash_toString_throws (h : YHash) :
    YHash.toString h = .error .toStringUnsupported := rfl

/-! ## Claim C6: the chunker -/

/-- Removing one chunk from the front removes one from the ceiling count. -/
theorem ceilDiv_drop (S C n : Nat) (hC : 0 < C) (hS : 0 < S)
    (h : (S + C - 1) / C = n + 1) : (S - C + C - 1) / C = n := by
  by_cases hSC : S ≤ C
  · have h1 : (S + C - 1) / C = 1 := Nat.div_eq_of_lt_le (by omega) (by omega)
    have hn : n = 0 := by omega
    have h2 : S - C + C - 1 < C := by omega
    rw [hn]
    exact Nat.div_eq_of_lt h2
  · have h1 : S - C + C - 1 = S - 1 := by omega
    have h2 : S + C - 1 = S - 1 + C := by omega
    rw [h2, Nat.add_div_right _ hC] at h
    rw [h1]
    omega

/-- A non-empty file decomposes as its first chunk followed by the chunks of
its remainder. -/
theorem createFileChunks_cons (file : List Nat) (C : Nat) (hC : 0 < C)
    (hS : 0 < file.length) :
    createFileChunks file C = file.take C :: createFileChunks (file.drop C) C := by
  have hpos : 1 ≤ (file.length + C - 1) / C := by
    rw [Nat.le_div_iff_mul_le hC]
    omega
  obtain ⟨n, hn⟩ : ∃ n, (file.length + C - 1) / C = n + 1 :=
    ⟨(file.length + C - 1) / C - 1, by omega⟩
  have hn' : ((file.drop C).length + C - 1) / C = n := by
    rw [List.length_drop]
    exact ceilDiv_drop file.length C n hC hS hn
  simp only [createFileChunks]
  rw [hn, hn', List.range_succ_eq_map, List.map_cons, List.map_map]
  congr 1
  · simp only [Nat.zero_mul, List.drop_zero, Nat.zero_add, Nat.sub_zero]
    rw [List.take_eq_take]
    omega
  · refine List.map_congr_left fun i hi => ?_
    simp only [Function.comp]
    have h1 : (i + 1) * C = i * C + C := by ring
    rw [h1, ← List.drop_drop]
    have h2 : (file.drop C).length = file.length - C := List.length_drop C file
    congr 1
    · rw [h2]
      omega
    · rw [List.drop_drop, List.drop_drop]
      congr 1
      omega

/-- The chunks of a file concatenate back to the file: the byte ranges are
contiguous, non-overlapping and cover the file exactly. -/
theorem createFileChunks_flatten (C : Nat) (hC : 0 < C) :
    ∀ file : List Nat, (createFileChunks file C).flatten = file := by
  suffices h : ∀ n file, (file.length + C - 1) / C = n →
      (createFileChunks (file : List Nat) C).flatten = file by
    intro file
    exact h _ file rfl
  intro n
  induction n with
  | zero =>
    intro file h
    have hlen : file.length = 0 := by
      by_contra h0
      have h1 : 1 ≤ (file.length + C - 1) / C := by
        rw [Nat.le_div_iff_mul_le hC]
        omega
      omega
    rw [List.length_eq_zero.1 hlen]
    simp [createFileChunks, Nat.div_eq_of_lt (by omega : 0 + C - 1 < C)]
  | succ n ih =>
    intro file h
    have hS : 0 < file.length := by
      by_contra h0
      have h1 : file.length = 0 := by omega
      rw [h1, Nat.div_eq_of_lt (by omega : 0 + C - 1 < C)] at h
      omega
    rw [createFileChunks_cons file C hC hS, List.flatten_cons,
      ih (file.drop C) (by rw [List.length_drop]; exact ceilDiv_drop _ _ _ hC hS h),
      List.take_append_drop]

/-- Claim C6: with any positive chunk size, a non-empty file is cut into
exactly ceiling of size over chunk size many chunks; the chunk at an index
covers the byte range from that index times the chunk size up to the next
multiple, clipped to the file size; and the chunks concatenate back to the
whole file, so the ranges are contiguous, non-overlapping and exhaustive. -/
theorem createFileChunks_spec (file : List Nat) (C : Nat) (hC : 0 < C)
    (_hS : 0 < file.length) :
    (createFileChunks file C).length = (file.length + C - 1) / C ∧
    (createFileChunks file C).flatten = file ∧
    ∀ i, i < (createFileChunks file C).length →
      (createFileChunks file C).getD i [] =
        (file.drop (i * C)).take (min ((i + 1) * C) file.length - i * C) := by
  refine ⟨by simp [createFileChunks], createFileChunks_flatten C hC file, fun i hi => ?_⟩
  have hi' : i < (file.length + C - 1) / C := by
    simpa [createFileChunks] using hi
  have hgot : (createFileChunks file C).getD i [] =
      (file.drop (i * C)).take (min (i * C + C) file.length - i * C) := by
    simp only [createFileChunks, List.getD_eq_getElem?_getD]
    rw [List.getElem?_map, List.getElem?_range hi']
    rfl
  rw [hgot]
  have h1 : (i + 1) * C = i * C + C := by ring
  rw [h1]

/-- Witness for C6 at a concrete three-byte file with chunk size two. -/
theorem createFileChunks_spec_witness : (createFileChunks [5, 6, 7] 2).flatten = [5, 6, 7] :=
  (createFileChunks_spec [5, 6, 7] 2 (by decide) (by decide)).2.1

/-! ## Claim C9: the completion counter and progress callback -/

/-- The rounded percentage of a completed total is one hundred. -/
theorem percentage_total (n : Nat) (hn : 0 < n) : percentage n n = 100 := by
  simp only [percentage, if_neg (by omega : ¬n = 0)]
  rw [show 200 * n + n = 2 * n * 100 + n by ring, Nat.mul_add_div (by omega),
    Nat.div_eq_of_lt (by omega)]

/-- Closed form of the counter fold: starting from any counter value and log,
the counter rises by one per event and the log gains one percentage per
event, computed from the successive counter values. -/
theorem progressRun_fold (total : Nat) :
    ∀ (exec : List Nat) (k : Nat) (acc : List Nat),
      exec.foldl (fun st _ => (st.1 + 1, st.2 ++ [percentage (st.1 + 1) total])) (k, acc) =
        (k + exec.length,
          acc ++ (List.range exec.length).map fun j => percentage (k + j + 1) total) := by
  intro exec
  induction exec with
  | nil => simp
  | cons e rest ih =>
    intro k acc
    rw [List.foldl_cons, ih (k + 1) (acc ++ [percentage (k + 1) total])]
    rw [List.length_cons, List.range_succ_eq_map, List.map_cons, List.map_map,
      List.append_assoc]
    refine congrArg₂ Prod.mk (by omega) ?_
    rw [List.singleton_append]
    refine congrArg (acc ++ ·) (congrArg₂ List.cons (by rw [Nat.add_zero]) ?_)
    refine List.map_congr_left fun j _ => ?_
    simp only [Function.comp]
    refine congrArg (fun c => percentage c total) (by omega)

/-- Claim C9: over any temporal completion order of a fully successful upload
of the chunk count many chunks, the counter is incremented exactly once per
chunk, ending at the chunk count; the reported values are the rounded
percentages of the successive counter values over the total; a total of zero
makes the percentage an immediate one hundred; and for a positive chunk count
the final report is one hundred. -/
theorem progress_reports (n : Nat) (exec : List Nat) (hperm : exec.Perm (uploadOrder n)) :
    (progressRun n exec).1 = n ∧
    (progressRun n exec).2 = ((List.range n).map fun j => percentage (j + 1) n) ∧
    (∀ c, percentage c 0 = 100) ∧
    (0 < n → (progressRun n exec).2.getLast? = some 100) := by
  have hlen : exec.length = n := by
    rw [hperm.length_eq, uploadOrder_length]
  have hrun : progressRun n exec =
      (n, (List.range n).map fun j => percentage (j + 1) n) := by
    rw [progressRun, progressRun_fold n exec 0 [], hlen]
    refine congrArg₂ Prod.mk (by omega) ?_
    rw [List.nil_append]
    exact List.map_congr_left fun j _ => congrArg (fun c => percentage c n) (by omega)
  refine ⟨by rw [hrun], by rw [hrun], fun c => by simp [percentage], fun hn => ?_⟩
  rw [hrun]
  obtain ⟨m, rfl⟩ : ∃ m, n = m + 1 := ⟨n - 1, by omega⟩
  rw [List.range_succ, List.map_append, List.map_cons, List.map_nil]
  rw [List.getLast?_concat]
  rw [percentage_total (m + 1) hn]

/-- Witness for C9: with three chunks completed in the pool order, the counter
ends at three. -/
theorem progress_reports_witness : (progressRun 3 (uploadOrder 3)).1 = 3 :=
  (progress_reports 3 (uploadOrder 3) (List.Perm.refl _)).1

/-! ## Claims C4 and C5: failure handling of putFile -/

/-- Every event a worker emits is a chunk upload attempt. -/
theorem runWorkerAux_events (env : GatewayEnv) :
    ∀ l : List Nat, ∀ e ∈ (runWorkerAux env l).1, ∃ i, e = Event.uploadChunk i := by
  intro l
  induction l with
  | nil => intro e he; exact absurd he (List.not_mem_nil e)
  | cons i rest ih =>
    intro e he
    rw [runWorkerAux] at he
    by_cases hc : env.chunkOk i
    · rw [if_pos hc] at he
      rcases List.mem_cons.1 he with h | h
      · exact ⟨i, h⟩
      · exact ih e h
    · rw [if_neg hc] at he
      rcases List.mem_cons.1 he with h | h
      · exact ⟨i, h⟩
      · exact absurd h (List.not_mem_nil e)

/-- A worker finishes without error exactly when every chunk on its stride
uploads successfully. -/
theorem runWorkerAux_none (env : GatewayEnv) :
    ∀ l : List Nat, (runWorkerAux env l).2 = none ↔ ∀ i ∈ l, env.chunkOk i = true := by
  intro l
  induction l with
  | nil => simp [runWorkerAux]
  | cons i rest ih =>
    rw [runWorkerAux]
    by_cases hc : env.chunkOk i
    · rw [if_pos hc]
      simp only [List.mem_cons]
      constructor
      · intro hnone j hj
        rcases hj with h | h
        · rw [h]; exact hc
        · exact (ih.1 hnone) j h
      · intro hall
        exact ih.2 fun j hj => hall j (Or.inr hj)
    · rw [if_neg hc]
      simp only [List.mem_cons]
      constructor
      · intro hnone
        exact absurd hnone (by simp)
      · intro hall
        exact absurd (hall i (Or.inl rfl)) hc

/-- The pool emits only chunk upload attempts. -/
theorem parallelUpload_events (env : GatewayEnv) (n : Nat) :
    ∀ e ∈ (parallelUpload env n).2, ∃ i, e = Event.uploadChunk i := by
  intro e he
  have hmem : e ∈ ((List.range MAXIMUM_CONCURRENT_UPLOADS).map fun w =>
      runWorkerAux env (strideIndices w n)).flatMap Prod.fst := by
    rw [parallelUpload] at he
    rcases hh : (((List.range MAXIMUM_CONCURRENT_UPLOADS).map fun w =>
        runWorkerAux env (strideIndices w n)).filterMap Prod.snd).head? with _ | i
    · rw [hh] at he; exact he
    · rw [hh] at he; exact he
  rw [List.mem_flatMap] at hmem
  obtain ⟨run, hrun, hemem⟩ := hmem
  rw [List.mem_map] at hrun
  obtain ⟨w, _, hw⟩ := hrun
  rw [← hw] at hemem
  exact runWorkerAux_events env (strideIndices w n) e hemem

/-- The pool succeeds exactly when every chunk index below the count uploads
successfully. -/
theorem parallelUpload_ok (env : GatewayEnv) (n : Nat) :
    (parallelUpload env n).1.isOk = true ↔ ∀ i, i < n → env.chunkOk i = true := by
  rw [parallelUpload]
  rcases hh : (((List.range MAXIMUM_CONCURRENT_UPLOADS).map fun w =>
      runWorkerAux env (strideIndices w n)).filterMap Prod.snd).head? with _ | i
  · simp only [hh]
    rw [List.head?_eq_none_iff, List.filterMap_eq_nil_iff] at hh
    constructor
    · intro _ i hi
      obtain ⟨w, hwmem, hwstride⟩ := List.mem_flatMap.1 ((mem_uploadOrder (n := n)).2 hi)
      have hnone : (runWorkerAux env (strideIndices w n)).2 = none :=
        hh _ (List.mem_map.2 ⟨w, hwmem, rfl⟩)
      exact (runWorkerAux_none env (strideIndices w n)).1 hnone i hwstride
    · intro _; rfl
  · simp only [hh]
    constructor
    · intro hok
      exact absurd hok (by simp [Except.isOk, Except.toBool])
    · intro hall
      exfalso
      have hmem : i ∈ ((List.range MAXIMUM_CONCURRENT_UPLOADS).map fun w =>
          runWorkerAux env (strideIndices w n)).filterMap Prod.snd :=
        List.mem_of_mem_head? (hh ▸ rfl)
      obtain ⟨run, hrunmem, hrunsnd⟩ := List.mem_filterMap.1 hmem
      obtain ⟨w, _, hw⟩ := List.mem_map.1 hrunmem
      have hne : (runWorkerAux env (strideIndices w n)).2 ≠ none := by
        rw [hw, hrunsnd]
        exact Option.some_ne_none i
      have hbad : ¬∀ j ∈ strideIndices w n, env.chunkOk j = true :=
        fun hgood => hne ((runWorkerAux_none env (strideIndices w n)).2 hgood)
      push_neg at hbad
      obtain ⟨j, hjmem, hjbad⟩ := hbad
      exact hjbad (hall j (mem_strideIndices.1 hjmem).2)

/-- Claim C5: whenever putFile fails at any step, the registry registration is
absent from the emitted calls; and whenever the registration was emitted, the
tree registration and every chunk upload below the chunk count succeeded
first. -/
theorem putFile_no_partial_registration (env : GatewayEnv) (path file : List Nat) :
    ((putFile env path file).1.isOk = false → Event.register ∉ (putFile env path file).2) ∧
    (Event.register ∈ (putFile env path file).2 →
      env.treeOk = true ∧ ∀ i, i < (createFileChunks file).length → env.chunkOk i = true) := by
  simp only [putFile]
  by_cases hp : path.isEmpty
  · rw [if_pos hp]
    exact ⟨fun _ => List.not_mem_nil _, fun hmem => absurd hmem (List.not_mem_nil _)⟩
  · rw [if_neg hp]
    rcases hb : BlobHashTree.build ((createFileChunks file).map YHash.fromBytes) with e | tree
    · exact ⟨fun _ => List.not_mem_nil _, fun hmem => absurd hmem (List.not_mem_nil _)⟩
    · dsimp only
      by_cases ht : env.treeOk
      · rw [if_pos ht]
        rcases hpu : parallelUpload env (createFileChunks file).length with ⟨res, events⟩
        have hev : ∀ e ∈ events, ∃ i, e = Event.uploadChunk i := by
          intro e he
          exact parallelUpload_events env (createFileChunks file).length e (by rw [hpu]; exact he)
        cases res with
        | ok u =>
          dsimp only
          refine ⟨fun hfalse => by simp [Except.isOk, Except.toBool] at hfalse, fun _ => ⟨ht, ?_⟩⟩
          have hok : (parallelUpload env (createFileChunks file).length).1.isOk = true := by
            rw [hpu]
            rfl
          exact fun i hi => (parallelUpload_ok env (createFileChunks file).length).1 hok i hi
        | error e =>
          dsimp only
          have hnr : Event.register ∉ Event.uploadTree :: events := by
            intro hmem
            rcases List.mem_cons.1 hmem with h | h
            · exact absurd h (by simp)
            · obtain ⟨i, hi⟩ := hev _ h
              exact absurd hi (by simp)
          exact ⟨fun _ => hnr, fun hmem => absurd hmem hnr⟩
      · rw [if_neg ht]
        have hnr : Event.register ∉ [Event.uploadTree] := by simp
        exact ⟨fun _ => hnr, fun hmem => absurd hmem hnr⟩

/-- Witness for C5 at a concrete failing tree registration: the registry is
not called. -/
theorem putFile_no_partial_registration_witness :
    Event.register ∉ (putFile ⟨false, fun _ => true⟩ [97] [1]).2 :=
  (putFile_no_partial_registration ⟨false, fun _ => true⟩ [97] [1]).1 (by decide)

/-- Counterexample to claim C4: for a concrete zero-byte file, putFile fails
with the empty-chunk-sequence error thrown inside BlobHashTree.build, not
with a distinct empty-file error raised before the builder; no such
empty-file check exists in the pipeline. -/
theorem putFile_empty_file_counterexample :
    (putFile ⟨true, fun _ => true⟩ [97] []).1 = .error .emptyChunkSequence ∧
    BlobHashTree.build ((createFileChunks ([] : List Nat)).map YHash.fromBytes) =
      .error .emptyChunkSequence :=
  ⟨rfl, rfl⟩

/-- Claim C4 as amended: a zero-byte file produces zero chunks, the Merkle
tree builder is invoked on the empty digest list and raises the
empty-chunk-sequence error, and putFile propagates exactly that error having
made no gateway or registry call. -/
theorem putFile_empty_file (env : GatewayEnv) (path file : List Nat)
    (hp : path ≠ []) (hf : file.length = 0) :
    createFileChunks file = [] ∧
    BlobHashTree.build ((createFileChunks file).map YHash.fromBytes) =
      .error .emptyChunkSequence ∧
    putFile env path file = (.error .emptyChunkSequence, []) := by
  rw [List.length_eq_zero.1 hf]
  cases path with
  | nil => exact absurd rfl hp
  | cons c cs => exact ⟨rfl, rfl, rfl⟩

/-- Witness for C4 as amended at a concrete path and the empty file. -/
theorem putFile_empty_file_witness :
    putFile ⟨true, fun _ => true⟩ [97] [] = (.error .emptyChunkSequence, []) :=
  (putFile_empty_file ⟨true, fun _ => true⟩ [97] [] (List.cons_ne_nil _ _) rfl).2.2

/-! ## Claim C7: the tagged-string round trip -/

theorem hexDigitCode_isHex : ∀ d, d < 16 → isHexDigitCode (hexDigitCode d) = true := by decide

theorem hexDigitCode_notSpace : ∀ d, d < 16 → isJsSpace (hexDigitCode d) = false := by decide

theorem hexDigitCode_notTerm : ∀ d, d < 16 → isLineTerm (hexDigitCode d) = false := by decide

theorem hexDigitCode_ne45 : ∀ d, d < 16 → (hexDigitCode d == 45) = false := by decide

theorem hexDigitCode_ne43 : ∀ d, d < 16 → (hexDigitCode d == 43) = false := by decide

theorem hexDigitCode_ne120 : ∀ d, d < 16 → (hexDigitCode d == 120) = false := by decide

theorem hexDigitCode_ne88 : ∀ d, d < 16 → (hexDigitCode d == 88) = false := by decide

theorem hexVal_hexDigitCode : ∀ d, d < 16 → hexVal (hexDigitCode d) = d := by decide

/-- parseInt with base 16 inverts the two-digit lowercase hex rendering of a
byte. -/
theorem parseIntHex_hexPair (b : Nat) (hb : b < 256) :
    parseIntHex (hexPair b) = some (Int.ofNat b) := by
  have h1 : b / 16 < 16 := by omega
  have h2 : b % 16 < 16 := by omega
  simp only [parseIntHex, hexPair, List.dropWhile, hexDigitCode_notSpace _ h1,
    List.headD, hexDigitCode_ne45 _ h1, hexDigitCode_ne43 _ h1, Bool.or_self,
    Bool.false_or, if_false, Bool.false_eq_true, List.tail, hexDigitCode_ne120 _ h2,
    hexDigitCode_ne88 _ h2, Bool.and_false, List.takeWhile, hexDigitCode_isHex _ h1,
    hexDigitCode_isHex _ h2, List.isEmpty_cons, List.foldl, hexVal_hexDigitCode _ h1,
    hexVal_hexDigitCode _ h2]
  congr 1
  simp only [Int.ofNat_eq_natCast]
  omega

/-- Pairing up a concatenation of two-digit hex renderings recovers the
renderings. -/
theorem matchPairs_flatMap (bs : List Nat) (h : ∀ b ∈ bs, b < 256) :
    matchPairs (bs.flatMap hexPair) = bs.map hexPair := by
  induction bs with
  | nil => rfl
  | cons b rest ih =>
    have hb : b < 256 := h b (List.mem_cons_self b rest)
    have h1 : b / 16 < 16 := by omega
    have h2 : b % 16 < 16 := by omega
    rw [List.flatMap_cons, List.map_cons]
    simp only [hexPair, List.cons_append, List.nil_append]
    rw [matchPairs]
    simp only [hexDigitCode_notTerm _ h1, hexDigitCode_notTerm _ h2, Bool.false_eq_true,
      if_false]
    rw [ih fun x hx => h x (List.mem_cons_of_mem b hx)]

/-- Parsing the paired hex renderings of a byte list recovers the bytes. -/
theorem decode_hexPairs (bs : List Nat) (h : ∀ b ∈ bs, b < 256) :
    ((bs.map hexPair).map fun g => toUint8 (parseIntHex g)) = bs := by
  induction bs with
  | nil => rfl
  | cons b rest ih =>
    have hb : b < 256 := h b (List.mem_cons_self b rest)
    rw [List.map_cons, List.map_cons, parseIntHex_hexPair b hb,
      ih fun x hx => h x (List.mem_cons_of_mem b hx)]
    congr 1
    simp only [toUint8, Int.ofNat_eq_natCast]
    omega

theorem begins_append (p r : List Nat) : begins p (p ++ r) = true := by
  induction p with
  | nil => rfl
  | cons a ps ih => simp [begins, ih]

/-- Removing the first occurrence of a leading pattern drops exactly the
pattern. -/
theorem replaceFirst_self (pat r : List Nat) (hp : pat ≠ []) :
    replaceFirst pat (pat ++ r) = r := by
  cases pat with
  | nil => exact absurd rfl hp
  | cons a ps =>
    rw [List.cons_append, replaceFirst, ← List.cons_append, if_pos (begins_append (a :: ps) r),
      List.drop_left]

/-- Changing the byte list of the length-checking constructor along an
equality of byte lists. -/
theorem YHash.make_eq (b1 b2 : List Nat) (p1 : ∀ x ∈ b1, x < 256)
    (p2 : ∀ x ∈ b2, x < 256) (he : b1 = b2) : YHash.make b1 p1 = YHash.make b2 p2 := by
  subst he
  rfl

/-- The length-checking constructor accepts a 32-byte buffer. -/
theorem YHash.make_ok (bs : List Nat) (p : ∀ x ∈ bs, x < 256) (hlen : bs.length = 32) :
    YHash.make bs p = .ok ⟨bs, hlen, p⟩ := by
  rw [YHash.make, dif_pos hlen]

/-- Claim C7: parsing the tagged rendering of any digest yields back a digest
with exactly the same 32 bytes. -/
theorem fromShaString_roundTrip (h : YHash) : YHash.fromShaString h.toShaString = .ok h := by
  rw [YHash.fromShaString, YHash.toShaString,
    replaceFirst_self _ _ (by simp [shaTag]), YHash.toHex]
  simp only [YHash.fromHex]
  rw [matchPairs_flatMap h.bytes h.lt256]
  have hne : (h.bytes.map hexPair).isEmpty = false := by
    have hlen : (h.bytes.map hexPair).length = 32 := by
      rw [List.length_map, h.len32]
    cases hmap : h.bytes.map hexPair with
    | nil => rw [hmap] at hlen; exact absurd hlen (by simp)
    | cons g gs => rfl
  simp only [hne, Bool.false_eq_true, if_false]
  rw [YHash.make_eq _ h.bytes _ h.lt256 (decode_hexPairs h.bytes h.lt256),
    YHash.make_ok h.bytes h.lt256 h.len32]

/-! ## Claim C8: malformed tagged strings -/

/-- A tagged string with the expected tag and a 64-character body of the
letter z, which is not a hexadecimal digit. -/
def nonHexTagged : List Nat := shaTag ++ List.replicate 64 122

/-- Counterexample to claim C8: parsing a tagged string whose body is not
valid hex does not fail at all; every two-character group parses to NaN,
which the Uint8Array stores as 0, so the parse succeeds with 32 zero bytes. -/
theorem fromShaString_nonHex_counterexample :
    (YHash.fromShaString nonHexTagged).toOption.map YHash.bytes =
      some (List.replicate 32 0) := by decide

/-- Claim C8 as amended: parsing a tagged string never fails with a
malformed-digest error, because none exists; the only parse failures are the
null-match error when the remaining body yields no character groups, and the
invalid-length error when the group count differs from 32. Unparsable groups
are coerced to byte 0 and a wrong prefix goes undetected. -/
theorem fromShaString_error_shapes (s : List Nat) (e : Err)
    (h : YHash.fromShaString s = .error e) :
    e = .nullMatch ∨ ∃ n, e = .invalidDigestLength n := by
  rw [YHash.fromShaString] at h
  simp only [YHash.fromHex] at h
  split at h
  · left
    injection h with h1
    exact h1.symm
  · rw [YHash.make] at h
    split at h
    · exact absurd h (by simp)
    · right
      injection h with h1
      exact ⟨_, h1.symm⟩

/-- Witness for C8 as amended: the empty string yields the null-match error,
one of the two permitted failure shapes. -/
theorem fromShaString_error_shapes_witness :
    Err.nullMatch = Err.nullMatch ∨ ∃ n, Err.nullMatch = Err.invalidDigestLength n :=
  fromShaString_error_shapes [] Err.nullMatch rfl
